import Mathlib

/-!
Verification of the requsim discrete-event simulation kernel.

This file is a shallow embedding, in Lean 4, of the parts of the requsim
source that the verified properties talk about:

* `src/requsim/events.py` — the `Event` base class and the `EventQueue`
  scheduling kernel (binary-search insertion, `add_event`,
  `resolve_next_event`, `resolve_until`, `advance_time`).
* `src/requsim/world.py` — the world-object registry
  (`register_world_object`, `deregister_world_object`, containment).
* `src/requsim/quantum_objects.py` and `src/requsim/quantum_objects/*.py` —
  the `Qubit` / `Pair` lifecycle relevant to `DiscardQubitEvent` and to
  unresolved-noise handling.  The repository ships two variants of the
  quantum-object layer (an older module `quantum_objects.py` and a newer
  package directory `quantum_objects/`); Python objects acquire attributes
  dynamically, so the embedding models an attribute store per object in
  which an attribute can be absent (reading it raises `AttributeError`).
* `src/requsim/noise.py` and `src/requsim/libs/aux_functions.py` — the
  `NoiseChannel.apply_to` dispatch and the `apply_m_qubit_map` /
  `apply_single_qubit_map` slicing algorithms.

Python scalars used as simulation times are embedded as `ℚ` (only ordering
and addition are used), priorities as `ℤ`, and Python object identity as a
`ℕ` tag.  Python exceptions are embedded either as an explicit error flag
returned next to the mutated state (when the mutation survives the raise,
as it does for `EventQueue.advance_time`) or as `Except`.
-/

namespace Requsim

/-! ## Event queue model (events.py) -/

/-- The scheduling data of one `Event` (events.py, `Event.__init__`):
its `time` (a Python scalar, embedded as `ℚ`), its `priority` (an int),
and an `id` tag modelling Python object identity; distinct event objects
carry distinct `id`s, and an event added later carries a larger `id`. -/
structure EvCore where
  time : ℚ
  priority : ℤ
  id : ℕ
deriving DecidableEq

/-- A queued event.  `core` is its scheduling data; `spawns` lists the
events that its `resolve` method hands to `EventQueue.add_event` while it
is being resolved (for example `EntanglementPurificationEvent._main_effect`
schedules an `UnblockEvent` or a destroying `GenericEvent`,
events.py lines 665-693).  A plain event whose effect schedules nothing
has `spawns = []`. -/
structure Ev where
  core : EvCore
  spawns : List EvCore
deriving DecidableEq

instance : Inhabited EvCore := ⟨⟨0, 0, 0⟩⟩

instance : Inhabited Ev := ⟨⟨default, []⟩⟩

/-- The sort key used by `EventQueue._insert_event` (events.py line 819):
the Python tuple `(event.time, event.priority)` compared lexicographically. -/
def evKey (e : EvCore) : ℚ ×ₗ ℤ := toLex (e.time, e.priority)

/-- The state of an `EventQueue` (events.py lines 771-776): the ordered
list of pending events and the current time.  The `_stats` counters are
bookkeeping that no verified property mentions and are not modelled. -/
structure EventQueue where
  queue : List Ev
  current_time : ℚ
deriving DecidableEq

/-- The bisection loop of `EventQueue._insert_event` (events.py lines
817-826).  The Python `while lo < hi` loop is embedded with an explicit
fuel argument; each iteration shrinks `hi - lo`, so any `fuel ≥ hi - lo`
computes the exact result of the loop. -/
def bisectGo (q : List Ev) (x : ℚ ×ₗ ℤ) : ℕ → ℕ → ℕ → ℕ
  | 0, lo, _ => lo
  | fuel + 1, lo, hi =>
    if lo < hi then
      if x < evKey (q.getD ((lo + hi) / 2) default).core then
        bisectGo q x fuel lo ((lo + hi) / 2)
      else
        bisectGo q x fuel ((lo + hi) / 2 + 1) hi
    else lo

/-- `EventQueue._insert_event` (events.py lines 799-827): binary search on
the key `(time, priority)` with insertion to the right of matching events,
then `self.queue.insert(lo, event)`. -/
def insertEvent (q : List Ev) (e : Ev) : List Ev :=
  q.insertIdx (bisectGo q (evKey e.core) q.length 0 q.length) e

/-- `EventQueue.add_event` (events.py lines 829-856): raises `ValueError`
when `event.time < self.current_time`, otherwise inserts the event.  The
second component is the raised-exception flag. -/
def addEvent (s : EventQueue) (e : Ev) : EventQueue × Bool :=
  if e.core.time < s.current_time then (s, true)
  else ({ s with queue := insertEvent s.queue e }, false)

/-- A sequence of `add_event` calls, as performed by an event's main
effect while it is being resolved; the first raised exception propagates
(aborting the remaining calls) but earlier insertions persist. -/
def addEvents (s : EventQueue) : List Ev → EventQueue × Bool
  | [] => (s, false)
  | e :: rest =>
    match addEvent s e with
    | (s', true) => (s', true)
    | (s', false) => addEvents s' rest

/-- `EventQueue.resolve_next_event` (events.py lines 858-876):

    event = self.queue[0]
    self.current_time = event.time
    return_message = event.resolve()
    self.queue = self.queue[1:]

`event.resolve()` is modelled by adding the event's `spawns` through
`add_event` (this is the only way an event's effect touches the queue).
Note that the slice `self.queue[1:]` is taken from the queue as it stands
AFTER the resolution, i.e. after any insertions done by the effect.
The result is the resolved event's core (the Python return dict), or an
error when `self.queue[0]` raises `IndexError` on an empty queue or when
an insertion performed by the effect raises. -/
def resolveNextEvent (s : EventQueue) : EventQueue × Except Unit EvCore :=
  match s.queue with
  | [] => (s, Except.error ())
  | e :: _ =>
    let s1 : EventQueue := { s with current_time := e.core.time }
    match addEvents s1 (e.spawns.map (fun c => ⟨c, []⟩)) with
    | (s2, true) => (s2, Except.error ())
    | (s2, false) => ({ s2 with queue := s2.queue.drop 1 }, Except.ok e.core)

/-- The `while self.queue:` loop of `EventQueue.resolve_until`
(events.py lines 899-905), embedded with explicit fuel: resolve the head
while its time is at most `target`, then set `current_time = target`.
Exhausted fuel (a loop that would not terminate within `fuel` steps) and
a raise inside `resolve_next_event` are both reported as `true` in the
second component. -/
def resolveUntilLoop (target : ℚ) : ℕ → EventQueue → EventQueue × Bool
  | 0, s =>
    match s.queue with
    | [] => ({ s with current_time := target }, false)
    | e :: _ =>
      if e.core.time ≤ target then (s, true)
      else ({ s with current_time := target }, false)
  | fuel + 1, s =>
    match s.queue with
    | [] => ({ s with current_time := target }, false)
    | e :: _ =>
      if e.core.time ≤ target then
        match resolveNextEvent s with
        | (s', Except.ok _) => resolveUntilLoop target fuel s'
        | (s', Except.error _) => (s', true)
      else ({ s with current_time := target }, false)

/-- `EventQueue.resolve_until` (events.py lines 878-905): raises
`ValueError` when `target_time < self.current_time`, otherwise runs the
resolution loop and finally sets `current_time = target_time`. -/
def resolveUntil (fuel : ℕ) (s : EventQueue) (target : ℚ) : EventQueue × Bool :=
  if target < s.current_time then (s, true)
  else resolveUntilLoop target fuel s

/-- `EventQueue.advance_time` (events.py lines 907-928):

    self.current_time += time_interval
    if self.queue and self.queue[0].time < self.current_time:
        raise ValueError(...)

The time is updated BEFORE the skipped-event check, and the update is not
rolled back when the check raises. -/
def advanceTime (s : EventQueue) (time_interval : ℚ) : EventQueue × Bool :=
  let s' : EventQueue := { s with current_time := s.current_time + time_interval }
  match s'.queue with
  | [] => (s', false)
  | e :: _ => if e.core.time < s'.current_time then (s', true) else (s', false)

/-- Draining the queue: repeatedly call `resolve_next_event` until the
queue is empty (with explicit fuel), collecting the resolved events in
order.  Also returns the final queue state. -/
def drainLog : ℕ → EventQueue → List EvCore × EventQueue
  | 0, s => ([], s)
  | fuel + 1, s =>
    match s.queue with
    | [] => ([], s)
    | _ :: _ =>
      match resolveNextEvent s with
      | (s', Except.ok c) =>
        let r := drainLog fuel s'
        (c :: r.1, r.2)
      | (s', Except.error _) => ([], s')

/-- Non-strict queue order: the insertion keys are non-decreasing. -/
def keyLe (a b : Ev) : Prop := evKey a.core ≤ evKey b.core

/-- Strict queue order: ascending `(time, priority)` key, with equal keys
ordered by the object-identity tag (an event object created and added
later has a larger `id`).  Queue states reachable through the public
interface are `List.Pairwise evStrictBefore` sorted. -/
def evStrictBefore (a b : Ev) : Prop :=
  evKey a.core < evKey b.core ∨ (evKey a.core = evKey b.core ∧ a.core.id < b.core.id)

/-- The clock-queue invariant of reachable `EventQueue` states: every
pending event is scheduled no earlier than the current time and the queue
is sorted by the insertion key. -/
def TimeInv (s : EventQueue) : Prop :=
  (∀ e ∈ s.queue, s.current_time ≤ e.core.time) ∧ List.Pairwise keyLe s.queue

/-- A pure scheduling sequence: the i-th `add_event` call carries the
i-th (time, priority) pair, the fresh object-identity tag `i`, and an
effect that schedules nothing. -/
def tagEvents (l : List (ℚ × ℤ)) : List Ev :=
  l.enum.map (fun p => ⟨⟨p.2.1, p.2.2, p.1⟩, []⟩)

/-- Counterexample data for the fires-at-most-once claim: an event at
time 0 with the default priority 20 whose effect schedules one follow-up
event at the same time 0 with priority 0 — exactly what an
`EntanglementPurificationEvent` with `communication_time = 0` does when it
schedules its `UnblockEvent` (events.py lines 666-670, priority 0 by
`UnblockEvent.__init__`). -/
def purifLikeEvent : Ev := ⟨⟨0, 20, 0⟩, [⟨0, 0, 1⟩]⟩

/-- A queue at time 0 holding only `purifLikeEvent`. -/
def c2Queue : EventQueue := ⟨[purifLikeEvent], 0⟩

/-- A queue at time 5 with no pending events (for the `advance_time`
counterexample). -/
def c4Queue : EventQueue := ⟨[], 5⟩

/-! ## World-object registry (world.py) and event validity (events.py) -/

/-- A world-object type string (the Python class name used as the key of
the `world_objects` dict). -/
inductive ObjType
  | QubitT
  | PairT
  | StationT
  | SourceT
  | otherT (n : ℕ)
deriving DecidableEq

/-- A world object as seen by the registry: its Python object identity
and its `type` property (world.py keys the registry by it). -/
structure WObj where
  id : ℕ
  otype : ObjType
deriving DecidableEq

/-- The `world_objects` dict of a `World` (world.py line 25): for each
type string the list of registered objects of that type; a type bucket
that was never touched is empty (the dict entry is created with `[]` on
first registration, world.py lines 110-111). -/
def Registry := ObjType → List WObj

/-- `World.register_world_object` (world.py lines 94-114): append the
object to its type bucket.  (The label counter only affects the returned
label string and is not modelled.) -/
def registerWorldObject (w : Registry) (x : WObj) : Registry :=
  fun t => if t = x.otype then w t ++ [x] else w t

/-- `World.deregister_world_object` (world.py lines 116-134):
`type_list.remove(world_object)` removes the first occurrence, and the
`except ValueError: pass` makes removal of an absent object a no-op. -/
def deregisterWorldObject (w : Registry) (x : WObj) : Registry :=
  fun t => if t = x.otype then (w t).erase x else w t

/-- `World.__contains__` (world.py lines 28-29): an object is in the
world iff it is in its type's bucket. -/
def worldContains (w : Registry) (x : WObj) : Bool := decide (x ∈ w x.otype)

/-- `Event._check_event_is_valid` (events.py lines 94-110), returning the
pair (return value, whether the `warn` call on lines 104-109 fired):
`objects_exist` is `np.all` of the containment tests over the required
objects, `objects_available` is True when `ignore_blocked` and otherwise
`np.all` of the not-blocked tests, and the warning fires exactly when
`objects_exist and not objects_available` inside the not-ignored branch. -/
def checkEventIsValid (w : Registry) (blocked : WObj → Bool) (required : List WObj)
    (ignore_blocked : Bool) : Bool × Bool :=
  let objects_exist := required.all (fun r => worldContains w r)
  if ignore_blocked then (objects_exist, false)
  else
    let objects_available := required.all (fun r => ! blocked r)
    (objects_exist && objects_available, objects_exist && ! objects_available)

/-- `Event.resolve` (events.py lines 133-171), with the event's main
effect abstracted as a transformer `effect` of the state `st` it acts on:
when the validity check passes, the effect runs and `resolve_successful`
stays True; otherwise the effect is skipped and the result dict carries
`resolve_successful = False`.  (The deregistration from required objects
and the callback loop follow in both branches and do not touch `st`.) -/
def eventResolve {α : Type} (w : Registry) (blocked : WObj → Bool) (required : List WObj)
    (ignore_blocked : Bool) (effect : α → α) (st : α) : α × Bool :=
  if (checkEventIsValid w blocked required ignore_blocked).1 then (effect st, true)
  else (st, false)

/-- Counterexample objects for the blocked-warning claim: a destroyed
qubit and a blocked qubit. -/
def c8Gone : WObj := ⟨0, ObjType.QubitT⟩

/-- The blocked required object of the warning counterexample. -/
def c8Blocked : WObj := ⟨1, ObjType.QubitT⟩

/-- A registry in which `c8Blocked` exists and `c8Gone` has been
destroyed. -/
def c8Registry : Registry :=
  fun t => if t = ObjType.QubitT then [c8Blocked] else []

/-- Exactly `c8Blocked` is blocked. -/
def c8BlockedFlag : WObj → Bool := fun o => o == c8Blocked

/-! ## Noise channels (noise.py, libs/aux_functions.py) -/

/-- A complex scalar, embedded as a Gaussian rational (an exact subset of
the complex floats numpy computes with; the verified properties use only
zero, equality of entries and the channel functions themselves). -/
structure CNum where
  re : ℚ
  im : ℚ
deriving DecidableEq

instance : Zero CNum := ⟨⟨0, 0⟩⟩

/-- An n-qubit density matrix after `rho.reshape((2, 2) * n)`
(aux_functions.py line 318): a complex tensor with 2n binary axes,
embedded as a function from the list of axis values to the entry. -/
def NDTensor : Type := List Bool → CNum

/-- All index tuples produced by `np.ndindex(*(2, 2) * k)` in row-major
order: all Bool lists of length k with the leftmost axis slowest. -/
def npNdindex : ℕ → List (List Bool)
  | 0 => [[]]
  | k + 1 =>
    ((npNdindex k).map (fun l => false :: l)) ++ ((npNdindex k).map (fun l => true :: l))

/-- The slice tuple `my_slice` built in `apply_m_qubit_map`
(aux_functions.py lines 325-328): start from the bound index tuple and
insert `slice(None)` (here `none`) at each position of `index_list` in
turn. -/
def mkSlice (idx : List Bool) (index_list : List ℕ) : List (Option Bool) :=
  index_list.foldl (fun acc p => acc.insertIdx p none) (idx.map some)

/-- Whether a full index tuple lies in the cell addressed by a slice: it
must agree with every bound axis (and have matching length). -/
def matchesSlice : List (Option Bool) → List Bool → Bool
  | [], [] => true
  | some b :: s, x :: a => (x == b) && matchesSlice s a
  | none :: s, _ :: a => matchesSlice s a
  | _, _ => false

/-- The sub-tensor index of a full index tuple: its values on the free
(`slice(None)`) axes. -/
def extractFree : List (Option Bool) → List Bool → List Bool
  | none :: s, x :: a => x :: extractFree s a
  | some _ :: s, _ :: a => extractFree s a
  | _, _ => []

/-- Reconstruct a full index tuple from a slice and values for its free
axes. -/
def fillSlice : List (Option Bool) → List Bool → List Bool
  | some b :: s, free => b :: fillSlice s free
  | none :: s, f :: free => f :: fillSlice s free
  | _, _ => []

/-- `apply_m_qubit_map(map_func, qubit_indices, rho)` (aux_functions.py
lines 293-334) on an n-qubit state: `m = len(qubit_indices)`, the qubit
indices are sorted (`qubit_indices = sorted(qubit_indices)`, line 320),
`index_list = qubit_indices + [n + i for i in qubit_indices]` (line 321),
`out` starts as `np.zeros_like(rho)` (line 323) and for every bound index
tuple of the remaining `2*(n-m)` axes the loop writes
`out[my_slice] = map_func(rho[my_slice].reshape(...)).reshape(...)`
(lines 324-333).  The reshapes between a 2m-axis sub-tensor and a
2^m by 2^m matrix are mutually inverse bijections and are absorbed into
the type of `map_func`, which here acts on sub-tensors directly. -/
def applyMQubitMap (map_func : NDTensor → NDTensor) (qubit_indices : List ℕ)
    (n : ℕ) (rho : NDTensor) : NDTensor :=
  let m := qubit_indices.length
  let sorted_indices := qubit_indices.mergeSort (fun a b => decide (a ≤ b))
  let index_list := sorted_indices ++ sorted_indices.map (fun i => n + i)
  (npNdindex (2 * (n - m))).foldl
    (fun out idx =>
      let sl := mkSlice idx index_list
      fun a =>
        if matchesSlice sl a then
          map_func (fun free => rho (fillSlice sl free)) (extractFree sl a)
        else out a)
    (fun _ => 0)

/-- The final `np.real_if_close` of `apply_single_qubit_map`
(aux_functions.py line 290) is numerical cleanup that discards negligible
imaginary parts; it is embedded pointwise as dropping an exactly-zero
imaginary part. -/
def npRealIfClose (z : CNum) : CNum := if z.im = 0 then ⟨z.re, 0⟩ else z

/-- `apply_single_qubit_map(map_func, qubit_index, rho)` (aux_functions.py
lines 256-290): the same slicing as `apply_m_qubit_map` with the single
free qubit axis pair at positions `qubit_index` and `n + qubit_index`
(the slice built on lines 282-288 equals inserting `slice(None)` at those
two positions), followed by `np.real_if_close` on the result. -/
def applySingleQubitMap (map_func : NDTensor → NDTensor) (qubit_index : ℕ)
    (n : ℕ) (rho : NDTensor) : NDTensor :=
  let index_list := [qubit_index, n + qubit_index]
  fun a => npRealIfClose
    (((npNdindex (2 * (n - 1))).foldl
      (fun out idx =>
        let sl := mkSlice idx index_list
        fun b =>
          if matchesSlice sl b then
            map_func (fun free => rho (fillSlice sl free)) (extractFree sl b)
          else out b)
      (fun _ => 0)) a)

/-- A `NoiseChannel` (noise.py lines 7-38): its qubit arity `n_qubits`
and the wrapped channel function (acting on an `n_qubits`-qubit density
matrix, embedded on reshaped tensors). -/
structure NoiseChannelL where
  n_qubits : ℕ
  channel_function : NDTensor → NDTensor

/-- `NoiseChannel.apply_to(rho, qubit_indices)` (noise.py lines 40-66) on
an `n`-qubit state: `assert len(qubit_indices) == self.n_qubits` (line
58; `none` embeds the `AssertionError`), then dispatch to
`apply_single_qubit_map` with `qubit_indices[0]` for a 1-qubit channel
and to `apply_m_qubit_map` otherwise. -/
def NoiseChannelL.applyTo (c : NoiseChannelL) (rho : NDTensor)
    (qubit_indices : List ℕ) (n : ℕ) : Option NDTensor :=
  if qubit_indices.length = c.n_qubits then
    if c.n_qubits = 1 then
      some (applySingleQubitMap c.channel_function (qubit_indices.headD 0) n rho)
    else some (applyMQubitMap c.channel_function qubit_indices n rho)
  else none

/-! ## Qubit and Pair lifecycle (quantum_objects.py, quantum_objects/) -/

/-- Python exceptions raised by the embedded lifecycle code. -/
inductive PyErr
  | attributeError
  | assertionError
deriving DecidableEq

/-- The attribute store of a `Qubit` instance.  Python objects gain
attributes dynamically, so each attribute is wrapped in an outer
`Option`: `none` means the attribute was never assigned (reading it
raises `AttributeError`), `some v` means it is present with value `v`
(which may itself be Python `None`).

The module class `Qubit` in quantum_objects.py (`__init__`, lines
122-126) assigns `station`, `unresolved_noise` and `pair`; the package
class `Qubit` in quantum_objects/qubit.py (`__init__`, lines 35-45)
assigns `_unresolved_noises`, `_noise_handlers`, `_time_dependent_noises`
and `higher_order_object` (and `_info`).  Neither class assigns the
attributes of the other. -/
structure QubitAttrs where
  station : Option (Option ℕ) := none
  unresolved_noise : Option (Option NoiseChannelL) := none
  pair : Option (Option ℕ) := none
  higher_order_object : Option (Option ℕ) := none
  unresolvedNoises : Option (List NoiseChannelL) := none
  timeDependentNoises : Option (List NoiseChannelL) := none

instance : Inhabited QubitAttrs := ⟨{}⟩

/-- `Qubit.__init__` of the module class (quantum_objects.py lines
122-126): stores the station and the (possibly `None`) unresolved-noise
channel, and sets `self.pair = None`. -/
def mkModuleQubit (station : Option ℕ) (unresolved : Option NoiseChannelL) : QubitAttrs :=
  { station := some station, unresolved_noise := some unresolved, pair := some none }

/-- `Qubit.__init__` of the package class (quantum_objects/qubit.py lines
35-45): empty `_unresolved_noises` and `_time_dependent_noises` lists and
`self.higher_order_object = None`.  The `_noise_handlers` list is kept
implicitly empty in this model: the claims settled on it only concern
qubits that never gain a handler, for which `_delegate_noise_handling`
(lines 106-113) returns False without running its loop body. -/
def mkPackageQubit : QubitAttrs :=
  { unresolvedNoises := some [], timeDependentNoises := some [],
    higher_order_object := some none }

/-- `Qubit.apply_noise(noise_channel)` of the package class
(quantum_objects/qubit.py lines 115-122) on a qubit with no registered
noise handler: delegation fails, so the channel — frozen with its
arguments; freezing with no extra arguments wraps the same function — is
appended to `_unresolved_noises`. -/
def applyNoiseNoHandlers (q : QubitAttrs) (ch : NoiseChannelL) : QubitAttrs :=
  { q with unresolvedNoises := some (q.unresolvedNoises.getD [] ++ [ch]) }

/-- The attribute store of a `Pair`: its qubit list and its state. -/
structure PairAttrs where
  qubits : List ℕ := []
  pstate : NDTensor := fun _ => 0

instance : Inhabited PairAttrs := ⟨{}⟩

/-- The simulation state for the qubit/pair lifecycle: the world
registry, the attribute stores of qubits and of pairs (indexed by object
identity) and each station's `qubits` list. -/
structure QPWorld where
  registry : Registry
  qubits : ℕ → QubitAttrs
  pairs : ℕ → PairAttrs
  stationQubits : ℕ → List ℕ

/-- Update the attribute store of one qubit. -/
def QPWorld.updQubit (w : QPWorld) (i : ℕ) (f : QubitAttrs → QubitAttrs) : QPWorld :=
  { w with qubits := fun j => if j = i then f (w.qubits j) else w.qubits j }

/-- `Pair.__init__` (quantum_objects.py lines 182-229; the package copy
quantum_objects/pair.py lines 46-93 is textually identical in everything
embedded here), called with the defaults `initial_cost_add = None` and
`initial_cost_max = None`, so that the resource-tracking block (lines
199-216) is skipped: set `self.qubits` and `self.state`, assign
`qubit.pair = self` on both qubits, then read
`self.qubit1.unresolved_noise` and — when that attribute is present and
not `None` — apply it to the state at qubit index 0 and clear the
attribute (lines 218-222; same for qubit 2 at index 1, lines 223-227),
and finally register the pair in the world (via
`WorldObject.__init__`).  Reading `unresolved_noise` on a qubit that
lacks the attribute raises `AttributeError`; a failing arity assert
inside `apply_to` raises `AssertionError`. -/
def pairInit (w : QPWorld) (pid q1 q2 : ℕ) (initial_state : NDTensor) :
    Except PyErr QPWorld :=
  let w1 := (w.updQubit q1 (fun a => { a with pair := some (some pid) })).updQubit q2
    (fun a => { a with pair := some (some pid) })
  match (w1.qubits q1).unresolved_noise with
  | none => Except.error PyErr.attributeError
  | some u1 =>
    let step1 : Except PyErr (NDTensor × QPWorld) :=
      match u1 with
      | none => Except.ok (initial_state, w1)
      | some ch =>
        match ch.applyTo initial_state [0] 2 with
        | none => Except.error PyErr.assertionError
        | some st =>
          Except.ok
            (st, w1.updQubit q1 (fun a => { a with unresolved_noise := some none }))
    match step1 with
    | Except.error e => Except.error e
    | Except.ok (st1, w2) =>
      match (w2.qubits q2).unresolved_noise with
      | none => Except.error PyErr.attributeError
      | some u2 =>
        match u2 with
        | none =>
          Except.ok { w2 with
            registry := registerWorldObject w2.registry ⟨pid, ObjType.PairT⟩,
            pairs := fun j =>
              if j = pid then { qubits := [q1, q2], pstate := st1 } else w2.pairs j }
        | some ch =>
          match ch.applyTo st1 [1] 2 with
          | none => Except.error PyErr.assertionError
          | some st2 =>
            let w3 := w2.updQubit q2 (fun a => { a with unresolved_noise := some none })
            Except.ok { w3 with
              registry := registerWorldObject w3.registry ⟨pid, ObjType.PairT⟩,
              pairs := fun j =>
                if j = pid then { qubits := [q1, q2], pstate := st2 } else w3.pairs j }

/-- `Qubit.destroy` (quantum_objects.py lines 135-138):
`self.station.remove_qubit(self)` followed by deregistration from the
world.  The package `WorldObject.destroy`
(quantum_objects/world_object.py lines 52-56) runs the destroy callbacks,
which for a package qubit are the world deregistration plus — when the
qubit was registered at a station (quantum_objects/station.py line 93) —
the same `remove_qubit`.  `Station.remove_qubit` removes the first
occurrence from the station's qubit list and only warns when absent. -/
def qubitDestroy (w : QPWorld) (q : ℕ) : QPWorld :=
  let w' :=
    match (w.qubits q).station with
    | some (some st) =>
      { w with stationQubits := fun s =>
          if s = st then (w.stationQubits s).erase q else w.stationQubits s }
    | _ => w
  { w' with registry := deregisterWorldObject w'.registry ⟨q, ObjType.QubitT⟩ }

/-- `Pair.destroy` is the inherited `WorldObject.destroy`
(quantum_objects.py lines 57-60): deregistration from the world. -/
def pairDestroy (w : QPWorld) (p : ℕ) : QPWorld :=
  { w with registry := deregisterWorldObject w.registry ⟨p, ObjType.PairT⟩ }

/-- `DiscardQubitEvent._main_effect` (events.py lines 543-559): read
`self.qubit.higher_order_object`; when present and not `None`, destroy
every qubit of that pair and then the pair; otherwise destroy the one
qubit.  Reading the attribute on a qubit that never gained it (the module
class assigns `pair`, never `higher_order_object`, and `Pair.__init__`
likewise assigns only `pair`) raises `AttributeError`. -/
def discardMainEffect (w : QPWorld) (q : ℕ) : Except PyErr QPWorld :=
  match (w.qubits q).higher_order_object with
  | none => Except.error PyErr.attributeError
  | some none => Except.ok (qubitDestroy w q)
  | some (some hid) =>
    let w' := ((w.pairs hid).qubits).foldl qubitDestroy w
    Except.ok (pairDestroy w' hid)

/-- `Event.resolve` of a `DiscardQubitEvent` (events.py lines 133-171 and
521-531): the required objects are `[qubit]` and `ignore_blocked = True`,
so the validity check reduces to the containment test; on success the
main effect runs, otherwise the result dict carries
`resolve_successful = False`. -/
def discardResolve (w : QPWorld) (q : ℕ) : Except PyErr (QPWorld × Bool) :=
  if (⟨q, ObjType.QubitT⟩ : WObj) ∈ w.registry ObjType.QubitT then
    (discardMainEffect w q).map (fun w' => (w', true))
  else Except.ok (w, false)

/-- A world holding two module-class qubits (ids 1 and 2, located at
station 7) — the smallest setting in which a `Pair` can be constructed
without raising. -/
def c5World : QPWorld :=
  { registry := fun t =>
      if t = ObjType.QubitT then [⟨1, ObjType.QubitT⟩, ⟨2, ObjType.QubitT⟩] else [],
    qubits := fun i => if i = 1 ∨ i = 2 then mkModuleQubit (some 7) none else default,
    pairs := fun _ => default,
    stationQubits := fun s => if s = 7 then [1, 2] else [] }

/-- The result of `Pair(world, qubits=[qubit1, qubit2], initial_state=...)`
over the two qubits of `c5World` (pair id 10). -/
def c5PairResult : Except PyErr QPWorld := pairInit c5World 10 1 2 (fun _ => 0)

/-- The world of `c5World` after the pair construction succeeded. -/
def c5WorldWithPair : QPWorld :=
  match c5PairResult with
  | Except.ok w => w
  | Except.error _ => c5World

/-- A single-qubit channel used as concrete noise (the identity map; only
its identity matters to the settled properties). -/
def c6Chan : NoiseChannelL := ⟨1, fun f => f⟩

/-- A world holding two package-class qubits (ids 1 and 2); qubit 1 has
the pending unresolved noise `c6Chan`, queued by `apply_noise` while the
qubit had no noise handler. -/
def c6World : QPWorld :=
  { registry := fun t =>
      if t = ObjType.QubitT then [⟨1, ObjType.QubitT⟩, ⟨2, ObjType.QubitT⟩] else [],
    qubits := fun i =>
      if i = 1 then applyNoiseNoHandlers mkPackageQubit c6Chan else mkPackageQubit,
    pairs := fun _ => default,
    stationQubits := fun _ => [] }

/-- A queue at time 0 holding one pending event at time 0 (for the
`advance_time` mutate-before-raise witness). -/
def c9Queue : EventQueue := ⟨[⟨⟨0, 20, 0⟩, []⟩], 0⟩

instance : DecidableRel keyLe := fun a b =>
  inferInstanceAs (Decidable (evKey a.core ≤ evKey b.core))

instance : DecidableRel evStrictBefore := fun a b =>
  inferInstanceAs (Decidable (_ ∨ _))

/-- A two-qubit channel used as a concrete witness input (the identity
map; only its arity matters to the settled property). -/
def c10Chan : NoiseChannelL := ⟨2, fun f => f⟩

/-! ## Theorems -/

/-- C3: an event whose required object has been destroyed (is no longer
contained in the world) resolves with `resolve_successful = False` and
its main effect is not invoked (the state the effect would act on is
returned unchanged, for every effect); and deregistering a world object
that the registry holds at most once a second time leaves the registry
unchanged (the embedded deregistration is total, mirroring the
`except ValueError: pass` that swallows the error of removing an absent
object). -/
theorem C3_validity_and_deregister_idempotence :
    (∀ {α : Type} (w : Registry) (blocked : WObj → Bool) (required : List WObj)
      (ig : Bool) (effect : α → α) (st : α),
      (∃ r ∈ required, r ∉ w r.otype) →
      eventResolve w blocked required ig effect st = (st, false))
    ∧ (∀ (w : Registry) (x : WObj), List.count x (w x.otype) ≤ 1 →
      deregisterWorldObject (deregisterWorldObject w x) x = deregisterWorldObject w x) := by
  constructor
  · intro α w blocked required ig effect st h
    obtain ⟨r, hr, hnot⟩ := h
    have hexist : required.all (fun r => worldContains w r) = false := by
      rw [List.all_eq_false]
      exact ⟨r, hr, by simp [worldContains, hnot]⟩
    unfold eventResolve checkEventIsValid
    by_cases hig : ig = true
    · simp [hig, hexist]
    · simp only [Bool.not_eq_true] at hig
      simp [hig, hexist]
  · intro w x hcount
    have hnot : x ∉ (w x.otype).erase x := by
      rw [← List.count_eq_zero, List.count_erase_self]
      omega
    funext t
    unfold deregisterWorldObject
    by_cases ht : t = x.otype
    · subst ht
      simp [List.erase_of_not_mem hnot]
    · simp [ht]

/-- C3 witness: a concrete event over one destroyed object resolves
unsuccessfully without invoking its effect, and a double deregistration
is a no-op on a registry holding the object once. -/
theorem C3_witness :
    eventResolve c8Registry c8BlockedFlag [c8Gone] false Nat.succ 0 = (0, false)
    ∧ deregisterWorldObject (deregisterWorldObject c8Registry c8Blocked) c8Blocked
      = deregisterWorldObject c8Registry c8Blocked :=
  ⟨C3_validity_and_deregister_idempotence.1 c8Registry c8BlockedFlag [c8Gone] false
      Nat.succ 0 ⟨c8Gone, by decide, by decide⟩,
    C3_validity_and_deregister_idempotence.2 c8Registry c8Blocked (by decide)⟩

/-- C8 counterexample: an event with `ignore_blocked = False` that
requires the destroyed object `c8Gone` and the blocked object
`c8Blocked` has a blocked required object at resolution time, yet the
warning is not emitted (the second component of the validity check is
`false`), because `_check_event_is_valid` only warns when all required
objects also still exist. -/
theorem C8_counterexample :
    c8BlockedFlag c8Blocked = true
    ∧ c8Blocked ∈ c8Registry c8Blocked.otype
    ∧ c8Gone ∉ c8Registry c8Gone.otype
    ∧ (checkEventIsValid c8Registry c8BlockedFlag [c8Gone, c8Blocked] false).2 = false := by
  decide

/-- C8 amended: for an event with `ignore_blocked = False` that has a
blocked required object at resolution time, the event is treated as a
validity failure (its effect is skipped and the result carries
`resolve_successful = False`) regardless of whether the other required
objects exist; the warning, however, is emitted if and only if all
required objects still exist in the world. -/
theorem C8_blocked_is_failure_warn_iff_all_exist :
    ∀ {α : Type} (w : Registry) (blocked : WObj → Bool) (required : List WObj)
      (effect : α → α) (st : α),
    (∃ r ∈ required, blocked r = true) →
    eventResolve w blocked required false effect st = (st, false)
    ∧ (checkEventIsValid w blocked required false).2
      = required.all (fun r => worldContains w r) := by
  intro α w blocked required effect st h
  obtain ⟨r, hr, hb⟩ := h
  have havail : required.all (fun r => ! blocked r) = false := by
    rw [List.all_eq_false]
    exact ⟨r, hr, by simp [hb]⟩
  refine ⟨?_, ?_⟩
  · unfold eventResolve checkEventIsValid
    simp [havail]
  · unfold checkEventIsValid
    simp [havail]

/-- C8 witness: the amended statement applied to a concrete event that
requires one existing blocked object. -/
theorem C8_witness :
    eventResolve c8Registry c8BlockedFlag [c8Blocked] false Nat.succ 0 = (0, false)
    ∧ (checkEventIsValid c8Registry c8BlockedFlag [c8Blocked] false).2
      = List.all [c8Blocked] (fun r => worldContains c8Registry r) :=
  C8_blocked_is_failure_warn_iff_all_exist c8Registry c8BlockedFlag [c8Blocked]
    Nat.succ 0 ⟨c8Blocked, by decide, by decide⟩

/-- C6: constructing a `Pair` over a qubit of the package class that
holds pending unresolved noise (a channel handed to `apply_noise` while
the qubit had no noise handler) raises `AttributeError`:
`Pair.__init__` reads `qubit.unresolved_noise`, an attribute the package
`Qubit` class never defines, and it never calls `add_noise_handler`
(the only code path that drains `_unresolved_noises`); in particular the
pending noise is neither applied to the pair state nor cleared. -/
theorem C6_retroactivity_bug (w : QPWorld) (pid q1 q2 : ℕ) (rho : NDTensor)
    (ch : NoiseChannelL)
    (h : w.qubits q1 = applyNoiseNoHandlers mkPackageQubit ch) :
    pairInit w pid q1 q2 rho = Except.error PyErr.attributeError
    ∧ (w.qubits q1).unresolvedNoises = some [ch] := by
  constructor
  · have hnone :
        (((w.updQubit q1 (fun a => { a with pair := some (some pid) })).updQubit q2
          (fun a => { a with pair := some (some pid) })).qubits q1).unresolved_noise
          = none := by
      unfold QPWorld.updQubit
      by_cases hq : q1 = q2
      · subst hq
        simp [h, applyNoiseNoHandlers, mkPackageQubit]
      · simp [hq, h, applyNoiseNoHandlers, mkPackageQubit]
    simp only [pairInit]
    rw [hnone]
  · rw [h]
    rfl

/-- C6 witness: the failing construction at the concrete world
`c6World`. -/
theorem C6_witness :
    pairInit c6World 10 1 2 (fun _ => 0) = Except.error PyErr.attributeError
    ∧ (c6World.qubits 1).unresolvedNoises = some [c6Chan] :=
  C6_retroactivity_bug c6World 10 1 2 (fun _ => 0) c6Chan rfl

/-- C5: in `c5World` the pair construction over qubits 1 and 2 succeeds,
but resolving a `DiscardQubitEvent` for qubit 1 — which now belongs to
pair 10 — raises `AttributeError` instead of destroying the pair and its
qubits: `DiscardQubitEvent._main_effect` reads
`qubit.higher_order_object`, an attribute `Pair.__init__` never assigns
(it assigns `qubit.pair`).  The world keeps the pair and both qubits. -/
theorem C5_discard_bug :
    c5PairResult = Except.ok c5WorldWithPair
    ∧ discardResolve c5WorldWithPair 1 = Except.error PyErr.attributeError
    ∧ (⟨10, ObjType.PairT⟩ : WObj) ∈ c5WorldWithPair.registry ObjType.PairT
    ∧ (⟨1, ObjType.QubitT⟩ : WObj) ∈ c5WorldWithPair.registry ObjType.QubitT
    ∧ (⟨2, ObjType.QubitT⟩ : WObj) ∈ c5WorldWithPair.registry ObjType.QubitT :=
  ⟨rfl, rfl, by decide, by decide, by decide⟩

/-- C7: `add_event` raises exactly when the event's time is strictly
before the queue's current time, and `advance_time` raises exactly when
the queue's head event (if any) is scheduled strictly before
`current_time + time_interval`. -/
theorem C7_no_time_travel_guards : ∀ (s : EventQueue) (e : Ev) (i : ℚ),
    ((addEvent s e).2 = true ↔ e.core.time < s.current_time)
    ∧ ((advanceTime s i).2 = true ↔
      ∃ f ∈ s.queue.head?, f.core.time < s.current_time + i) := by
  intro s e i
  constructor
  · unfold addEvent
    split <;> simp_all
  · unfold advanceTime
    cases hq : s.queue with
    | nil => simp [hq]
    | cons f rest =>
      by_cases hf : f.core.time < s.current_time + i <;> simp [hq, hf]

/-- C9: when `advance_time` raises the skipped-event error, the queue's
clock has nevertheless already been advanced by the full interval (the
update happens before the check and is not rolled back). -/
theorem C9_advance_time_mutates_before_raise :
    ∀ (s : EventQueue) (i : ℚ), (advanceTime s i).2 = true →
    (advanceTime s i).1.current_time = s.current_time + i := by
  intro s i _
  unfold advanceTime
  cases s.queue with
  | nil => rfl
  | cons f rest => by_cases hf : f.core.time < s.current_time + i <;> simp [hf]

/-- C9 witness: advancing a queue that has a pending event at time 0 by
one time unit raises, and the clock ends at 1. -/
theorem C9_witness :
    (advanceTime c9Queue 1).2 = true
    ∧ (advanceTime c9Queue 1).1.current_time = c9Queue.current_time + 1 := by
  have hraise : (advanceTime c9Queue 1).2 = true := by
    norm_num [advanceTime, c9Queue]
  exact ⟨hraise, C9_advance_time_mutates_before_raise c9Queue 1 hraise⟩

/-- C4 counterexample: `advance_time` accepts a negative interval without
raising and decreases `current_time`, so not every public operation
leaves the clock non-decreasing. -/
theorem C4_counterexample :
    (advanceTime c4Queue (-3)).2 = false
    ∧ (advanceTime c4Queue (-3)).1.current_time < c4Queue.current_time := by
  constructor
  · rfl
  · show c4Queue.current_time + (-3) < c4Queue.current_time
    norm_num [c4Queue]

/-- The bisection loop never returns less than `lo`. -/
theorem bisectGo_ge (q : List Ev) (x : ℚ ×ₗ ℤ) :
    ∀ (fuel lo hi : ℕ), lo ≤ bisectGo q x fuel lo hi := by
  intro fuel
  induction fuel with
  | zero => intro lo hi; exact le_rfl
  | succ fuel ih =>
    intro lo hi
    show lo ≤ (if lo < hi then _ else lo)
    split
    · split
      · exact ih lo ((lo + hi) / 2)
      · exact le_trans (by omega) (ih ((lo + hi) / 2 + 1) hi)
    · exact le_rfl

/-- The bisection loop never returns more than `hi` (when `lo ≤ hi`). -/
theorem bisectGo_le (q : List Ev) (x : ℚ ×ₗ ℤ) :
    ∀ (fuel lo hi : ℕ), lo ≤ hi → bisectGo q x fuel lo hi ≤ hi := by
  intro fuel
  induction fuel with
  | zero => intro lo hi h; exact h
  | succ fuel ih =>
    intro lo hi h
    show (if lo < hi then _ else lo) ≤ hi
    split
    · rename_i hlt
      split
      · exact le_trans (ih lo ((lo + hi) / 2) (by omega)) (by omega)
      · exact ih ((lo + hi) / 2 + 1) hi (by omega)
    · exact h

/-- A key-sorted queue has pointwise monotone keys. -/
theorem pairwise_keyLe_mono {q : List Ev} (h : List.Pairwise keyLe q) :
    ∀ i j, i ≤ j → j < q.length →
    evKey (q.getD i default).core ≤ evKey (q.getD j default).core := by
  intro i j hij hj
  rcases Nat.lt_or_ge i j with hlt | hge
  · have hi : i < q.length := lt_of_lt_of_le hlt (le_of_lt hj)
    have := (List.pairwise_iff_getElem.mp h) i j hi hj hlt
    rwa [List.getD_eq_getElem q default hi, List.getD_eq_getElem q default hj]
  · have : i = j := by omega
    subst this
    exact le_rfl

/-- Correctness of the bisection loop on a key-sorted queue: with enough
fuel, every position left of the result has key at most `x` and every
position at or right of the result has key strictly greater than `x`
(the `bisect_right` contract of events.py lines 817-826). -/
theorem bisectGo_spec (q : List Ev) (x : ℚ ×ₗ ℤ) (hq : List.Pairwise keyLe q) :
    ∀ (fuel lo hi : ℕ), hi - lo ≤ fuel → lo ≤ hi → hi ≤ q.length →
    (∀ i, i < lo → evKey (q.getD i default).core ≤ x) →
    (∀ i, hi ≤ i → i < q.length → x < evKey (q.getD i default).core) →
    (∀ i, i < bisectGo q x fuel lo hi → evKey (q.getD i default).core ≤ x)
    ∧ (∀ i, bisectGo q x fuel lo hi ≤ i → i < q.length →
        x < evKey (q.getD i default).core) := by
  intro fuel
  induction fuel with
  | zero =>
    intro lo hi hfuel hlh hhq hlo hhi
    have : lo = hi := by omega
    subst this
    exact ⟨hlo, fun i h1 h2 => hhi i h1 h2⟩
  | succ fuel ih =>
    intro lo hi hfuel hlh hhq hlo hhi
    show _ ∧ _
    by_cases hlt : lo < hi
    · have hred : bisectGo q x (fuel + 1) lo hi =
          if x < evKey (q.getD ((lo + hi) / 2) default).core then
            bisectGo q x fuel lo ((lo + hi) / 2)
          else bisectGo q x fuel ((lo + hi) / 2 + 1) hi := by
        show (if lo < hi then _ else lo) = _
        rw [if_pos hlt]
      rw [hred]
      have hmlt : (lo + hi) / 2 < hi := by omega
      have hmge : lo ≤ (lo + hi) / 2 := by omega
      by_cases hx : x < evKey (q.getD ((lo + hi) / 2) default).core
      · rw [if_pos hx]
        apply ih lo ((lo + hi) / 2) (by omega) (by omega) (by omega) hlo
        intro i h1 h2
        exact lt_of_lt_of_le hx (pairwise_keyLe_mono hq ((lo + hi) / 2) i h1 h2)
      · rw [if_neg hx]
        apply ih ((lo + hi) / 2 + 1) hi (by omega) (by omega) hhq ?_ hhi
        intro i h1
        exact le_trans
          (pairwise_keyLe_mono hq i ((lo + hi) / 2) (by omega) (by omega))
          (not_lt.mp hx)
    · have hred : bisectGo q x (fuel + 1) lo hi = lo := by
        show (if lo < hi then _ else lo) = lo
        rw [if_neg hlt]
      rw [hred]
      have : lo = hi := by omega
      subst this
      exact ⟨hlo, fun i h1 h2 => hhi i h1 h2⟩

/-- The insertion position chosen by `_insert_event` on a key-sorted
queue: everything left of it has key at most the new key, everything
right of it strictly greater. -/
theorem insertEvent_pos_spec (q : List Ev) (e : Ev) (hq : List.Pairwise keyLe q) :
    ∃ r, r ≤ q.length ∧ insertEvent q e = q.insertIdx r e
    ∧ (∀ i, i < r → evKey (q.getD i default).core ≤ evKey e.core)
    ∧ (∀ i, r ≤ i → i < q.length → evKey e.core < evKey (q.getD i default).core) := by
  refine ⟨bisectGo q (evKey e.core) q.length 0 q.length, ?_, rfl, ?_, ?_⟩
  · exact bisectGo_le q (evKey e.core) q.length 0 q.length (Nat.zero_le _)
  · exact (bisectGo_spec q (evKey e.core) hq q.length 0 q.length (by omega)
      (Nat.zero_le _) le_rfl (fun i h => absurd h (Nat.not_lt_zero i))
      (fun i h1 h2 => absurd (lt_of_le_of_lt h1 h2) (lt_irrefl _))).1
  · exact (bisectGo_spec q (evKey e.core) hq q.length 0 q.length (by omega)
      (Nat.zero_le _) le_rfl (fun i h => absurd h (Nat.not_lt_zero i))
      (fun i h1 h2 => absurd (lt_of_le_of_lt h1 h2) (lt_irrefl _))).2

/-- `List.insertIdx` as a take-drop split. -/
theorem insertIdx_split {α : Type} (e : α) :
    ∀ (r : ℕ) (q : List α), r ≤ q.length →
    q.insertIdx r e = q.take r ++ e :: q.drop r := by
  intro r
  induction r with
  | zero => intro q _; simp
  | succ r ih =>
    intro q h
    cases q with
    | nil => simp at h
    | cons a q' =>
      rw [List.insertIdx_succ_cons]
      simp only [List.take_succ_cons, List.drop_succ_cons, List.cons_append,
        List.cons.injEq, true_and]
      exact ih q' (by simpa using h)

/-- Members of a take-prefix bounded by an index-wise key bound. -/
theorem mem_take_key_le {q : List Ev} {x : ℚ ×ₗ ℤ} {r : ℕ}
    (hb : ∀ i, i < r → evKey (q.getD i default).core ≤ x) :
    ∀ a ∈ q.take r, evKey a.core ≤ x := by
  intro a ha
  rw [List.mem_take_iff_getElem] at ha
  obtain ⟨i, hm, hget⟩ := ha
  have hlen : i < q.length := lt_of_lt_of_le hm (min_le_right _ _)
  have := hb i (lt_of_lt_of_le hm (min_le_left _ _))
  rw [List.getD_eq_getElem q default hlen, hget] at this
  exact this

/-- Members of a drop-suffix bounded below by an index-wise key bound. -/
theorem mem_drop_key_gt {q : List Ev} {x : ℚ ×ₗ ℤ} {r : ℕ}
    (hb : ∀ i, r ≤ i → i < q.length → x < evKey (q.getD i default).core) :
    ∀ a ∈ q.drop r, x < evKey a.core := by
  intro a ha
  rw [List.mem_drop_iff_getElem] at ha
  obtain ⟨i, hm, hget⟩ := ha
  have := hb (r + i) (by omega) (by omega)
  rw [List.getD_eq_getElem q default (by omega), hget] at this
  exact this

/-- `_insert_event` keeps the queue key-sorted. -/
theorem insertEvent_pairwise_keyLe {q : List Ev} {e : Ev}
    (hq : List.Pairwise keyLe q) :
    List.Pairwise keyLe (insertEvent q e) := by
  obtain ⟨r, hr, heq, h1, h2⟩ := insertEvent_pos_spec q e hq
  rw [heq, insertIdx_split e r q hr]
  have hsplit : List.Pairwise keyLe (q.take r ++ q.drop r) := by
    rwa [List.take_append_drop]
  rw [List.pairwise_append] at hsplit
  obtain ⟨hA, hB, hAB⟩ := hsplit
  rw [List.pairwise_append]
  refine ⟨hA, ?_, ?_⟩
  · rw [List.pairwise_cons]
    exact ⟨fun b hb => le_of_lt (mem_drop_key_gt h2 b hb), hB⟩
  · intro a ha b hb
    rcases List.mem_cons.mp hb with hbe | hbd
    · subst hbe
      exact mem_take_key_le h1 a ha
    · exact hAB a ha b hbd

/-- `_insert_event` keeps the queue strictly sorted when the inserted
event object is fresher (larger id) than everything queued: insertion to
the right of matching keys is exactly FIFO among ties. -/
theorem insertEvent_pairwise_strict {q : List Ev} {e : Ev}
    (hq : List.Pairwise evStrictBefore q)
    (hfresh : ∀ f ∈ q, f.core.id < e.core.id) :
    List.Pairwise evStrictBefore (insertEvent q e) := by
  have hq' : List.Pairwise keyLe q := by
    refine hq.imp ?_
    intro a b h
    rcases h with h | h
    · exact le_of_lt h
    · exact le_of_eq h.1
  obtain ⟨r, hr, heq, h1, h2⟩ := insertEvent_pos_spec q e hq'
  rw [heq, insertIdx_split e r q hr]
  have hsplit : List.Pairwise evStrictBefore (q.take r ++ q.drop r) := by
    rwa [List.take_append_drop]
  rw [List.pairwise_append] at hsplit
  obtain ⟨hA, hB, hAB⟩ := hsplit
  rw [List.pairwise_append]
  refine ⟨hA, ?_, ?_⟩
  · rw [List.pairwise_cons]
    exact ⟨fun b hb => Or.inl (mem_drop_key_gt h2 b hb), hB⟩
  · intro a ha b hb
    rcases List.mem_cons.mp hb with hbe | hbd
    · subst hbe
      rcases lt_or_eq_of_le (mem_take_key_le h1 a ha) with hlt | heq2
      · exact Or.inl hlt
      · exact Or.inr ⟨heq2, hfresh a (List.mem_of_mem_take ha)⟩
    · exact hAB a ha b hbd

/-- `_insert_event` is a permutation-insert. -/
theorem insertEvent_perm (q : List Ev) (e : Ev) :
    (insertEvent q e).Perm (e :: q) :=
  List.perm_insertIdx e q (bisectGo_le q (evKey e.core) q.length 0 q.length (Nat.zero_le _))

/-- `add_event` never changes the clock. -/
theorem addEvent_time (s : EventQueue) (e : Ev) :
    (addEvent s e).1.current_time = s.current_time := by
  unfold addEvent
  split <;> rfl

/-- `add_event` succeeds exactly on events not scheduled in the past. -/
theorem addEvent_ok {s : EventQueue} {e : Ev} (h : s.current_time ≤ e.core.time) :
    addEvent s e = ({ s with queue := insertEvent s.queue e }, false) := by
  unfold addEvent
  rw [if_neg (not_lt.mpr h)]

/-- A burst of `add_event` calls never changes the clock (also when one
of them raises). -/
theorem addEvents_time : ∀ (es : List Ev) (s : EventQueue),
    (addEvents s es).1.current_time = s.current_time := by
  intro es
  induction es with
  | nil => intro s; rfl
  | cons e rest ih =>
    intro s
    show (match addEvent s e with
      | (s', true) => (s', true)
      | (s', false) => addEvents s' rest).1.current_time = _
    have hsplit : addEvent s e = ((addEvent s e).1, (addEvent s e).2) := rfl
    rw [hsplit]
    cases hb : (addEvent s e).2 with
    | true => exact addEvent_time s e
    | false => rw [ih]; exact addEvent_time s e

/-- A burst of `add_event` calls keeps the queue key-sorted (also when
one of them raises, since every completed insertion preserves order). -/
theorem addEvents_pairwise_keyLe : ∀ (es : List Ev) (s : EventQueue),
    List.Pairwise keyLe s.queue →
    List.Pairwise keyLe (addEvents s es).1.queue := by
  intro es
  induction es with
  | nil => intro s h; exact h
  | cons e rest ih =>
    intro s h
    by_cases hc : e.core.time < s.current_time
    · have hstep : addEvents s (e :: rest) = (s, true) := by
        show (match addEvent s e with
          | (s', true) => (s', true)
          | (s', false) => addEvents s' rest) = _
        unfold addEvent
        rw [if_pos hc]
      rw [hstep]
      exact h
    · have hstep : addEvents s (e :: rest)
          = addEvents { s with queue := insertEvent s.queue e } rest := by
        show (match addEvent s e with
          | (s', true) => (s', true)
          | (s', false) => addEvents s' rest) = _
        rw [addEvent_ok (not_lt.mp hc)]
      rw [hstep]
      exact ih _ (insertEvent_pairwise_keyLe h)

/-- A pure scheduling phase (the setting of the ordering claim): adding
events with non-past times and strictly increasing fresh object ids to a
strictly sorted queue raises nothing, keeps the clock, keeps the queue
strictly sorted and inserts exactly the added events. -/
theorem addEvents_spec : ∀ (es : List Ev) (s : EventQueue),
    List.Pairwise evStrictBefore s.queue →
    (∀ e ∈ es, s.current_time ≤ e.core.time) →
    (∀ f ∈ s.queue, ∀ e ∈ es, f.core.id < e.core.id) →
    List.Pairwise (fun a b : Ev => a.core.id < b.core.id) es →
    (addEvents s es).2 = false
    ∧ List.Pairwise evStrictBefore (addEvents s es).1.queue
    ∧ (addEvents s es).1.queue.Perm (s.queue ++ es) := by
  intro es
  induction es with
  | nil =>
    intro s hsort _ _ _
    exact ⟨rfl, hsort, by simp [addEvents]⟩
  | cons e rest ih =>
    intro s hsort htime hids hes
    have hadd : addEvent s e = ({ s with queue := insertEvent s.queue e }, false) :=
      addEvent_ok (htime e (List.mem_cons_self e rest))
    have hstep : addEvents s (e :: rest)
        = addEvents { s with queue := insertEvent s.queue e } rest := by
      show (match addEvent s e with
        | (s', true) => (s', true)
        | (s', false) => addEvents s' rest) = _
      rw [hadd]
    set s1 : EventQueue := { s with queue := insertEvent s.queue e } with hs1
    have hperm1 : s1.queue.Perm (e :: s.queue) := insertEvent_perm s.queue e
    have hsort1 : List.Pairwise evStrictBefore s1.queue :=
      insertEvent_pairwise_strict hsort
        (fun f hf => hids f hf e (List.mem_cons_self e rest))
    have hmem1 : ∀ f ∈ s1.queue, f = e ∨ f ∈ s.queue := by
      intro f hf
      have := hperm1.mem_iff.mp hf
      exact List.mem_cons.mp this
    have hrec := ih s1 hsort1
      (fun f hf => htime f (List.mem_cons_of_mem e hf))
      (by
        intro f hf g hg
        rcases hmem1 f hf with rfl | hfs
        · exact (List.pairwise_cons.mp hes).1 g hg
        · exact hids f hfs g (List.mem_cons_of_mem e hg))
      (List.pairwise_cons.mp hes).2
    refine ⟨by rw [hstep]; exact hrec.1, by rw [hstep]; exact hrec.2.1, ?_⟩
    rw [hstep]
    have h1 : (addEvents s1 rest).1.queue.Perm (s1.queue ++ rest) := hrec.2.2
    have h2 : (s1.queue ++ rest).Perm ((e :: s.queue) ++ rest) := hperm1.append_right rest
    have h3 : (e :: (s.queue ++ rest)).Perm (s.queue ++ e :: rest) := List.perm_middle.symm
    exact (h1.trans h2).trans h3

/-- Resolving the head of a queue of effect-free events pops exactly the
head and moves the clock to its time. -/
theorem resolveNextEvent_spawnFree {s : EventQueue} {e : Ev} {rest : List Ev}
    (hq : s.queue = e :: rest) (hsp : e.spawns = []) :
    resolveNextEvent s = (⟨rest, e.core.time⟩, Except.ok e.core) := by
  obtain ⟨queue, t⟩ := s
  simp only at hq
  subst hq
  simp only [resolveNextEvent, hsp, List.map_nil, addEvents, List.drop_succ_cons,
    List.drop_zero]

/-- Draining a queue of effect-free events resolves exactly the queued
events, in queue order, and empties the queue. -/
theorem drainLog_spawnFree : ∀ (q : List Ev) (t : ℚ),
    (∀ e ∈ q, e.spawns = []) →
    (drainLog q.length ⟨q, t⟩).1 = q.map (fun e => e.core)
    ∧ (drainLog q.length ⟨q, t⟩).2.queue = [] := by
  intro q
  induction q with
  | nil => intro t _; exact ⟨rfl, rfl⟩
  | cons e rest ih =>
    intro t hsp
    have hres : resolveNextEvent ⟨e :: rest, t⟩ = (⟨rest, e.core.time⟩, Except.ok e.core) :=
      resolveNextEvent_spawnFree rfl (hsp e (List.mem_cons_self e rest))
    have hstep : drainLog (e :: rest).length ⟨e :: rest, t⟩
        = (e.core :: (drainLog rest.length ⟨rest, e.core.time⟩).1,
          (drainLog rest.length ⟨rest, e.core.time⟩).2) := by
      show (match (⟨e :: rest, t⟩ : EventQueue).queue with
        | [] => ([], (⟨e :: rest, t⟩ : EventQueue))
        | _ :: _ =>
          match resolveNextEvent ⟨e :: rest, t⟩ with
          | (s', Except.ok c) =>
            let r := drainLog rest.length s'
            (c :: r.1, r.2)
          | (s', Except.error _) => ([], s')) = _
      rw [hres]
    have hrec := ih e.core.time (fun f hf => hsp f (List.mem_cons_of_mem e hf))
    rw [hstep]
    exact ⟨by rw [hrec.1]; rfl, hrec.2⟩

/-- C1: for every sequence of `add_event` calls, each with event time at
least the queue's current time, draining the queue by repeated
`resolve_next_event` calls raises nothing, resolves a permutation of
exactly the added events, empties the queue, and yields them in
non-decreasing `(time, priority)` key order with equal keys resolved in
the order in which they were added (the `id` tag is the add index). -/
theorem C1_ordering_fifo (l : List (ℚ × ℤ)) (t0 : ℚ)
    (h : ∀ p ∈ l, t0 ≤ p.1) :
    (addEvents ⟨[], t0⟩ (tagEvents l)).2 = false
    ∧ ((drainLog (addEvents ⟨[], t0⟩ (tagEvents l)).1.queue.length
        (addEvents ⟨[], t0⟩ (tagEvents l)).1).1).Pairwise
        (fun a b : EvCore => evKey a < evKey b ∨ (evKey a = evKey b ∧ a.id < b.id))
    ∧ ((drainLog (addEvents ⟨[], t0⟩ (tagEvents l)).1.queue.length
        (addEvents ⟨[], t0⟩ (tagEvents l)).1).1).Perm
        ((tagEvents l).map (fun e => e.core))
    ∧ (drainLog (addEvents ⟨[], t0⟩ (tagEvents l)).1.queue.length
        (addEvents ⟨[], t0⟩ (tagEvents l)).1).2.queue = [] := by
  have hlen : (tagEvents l).length = l.length := by
    unfold tagEvents
    rw [List.length_map, List.enum_length]
  have hget : ∀ (i : ℕ) (hil : i < l.length) (hi : i < (tagEvents l).length),
      (tagEvents l)[i] = ⟨⟨l[i].1, l[i].2, i⟩, []⟩ := by
    intro i hil hi
    unfold tagEvents
    rw [List.getElem_map, List.getElem_enum]
  have hmem : ∀ e ∈ tagEvents l, ∃ (i : ℕ) (hil : i < l.length),
      e = ⟨⟨l[i].1, l[i].2, i⟩, []⟩ := by
    intro e he
    obtain ⟨i, hi, hie⟩ := List.mem_iff_getElem.mp he
    refine ⟨i, by omega, ?_⟩
    rw [← hie, hget i (by omega) hi]
  have htimes : ∀ e ∈ tagEvents l, (⟨[], t0⟩ : EventQueue).current_time ≤ e.core.time := by
    intro e he
    obtain ⟨i, hi, rfl⟩ := hmem e he
    exact h _ (List.getElem_mem hi)
  have hids : List.Pairwise (fun a b : Ev => a.core.id < b.core.id) (tagEvents l) := by
    rw [List.pairwise_iff_getElem]
    intro i j hi hj hij
    rw [hget i (by omega) hi, hget j (by omega) hj]
    exact hij
  have hspec := addEvents_spec (tagEvents l) ⟨[], t0⟩ (List.Pairwise.nil)
    htimes (by intro f hf; simp at hf) hids
  obtain ⟨hflag, hsorted, hperm⟩ := hspec
  have hpermnil : (addEvents ⟨[], t0⟩ (tagEvents l)).1.queue.Perm (tagEvents l) := by
    simpa using hperm
  have hspfree : ∀ e ∈ (addEvents ⟨[], t0⟩ (tagEvents l)).1.queue, e.spawns = [] := by
    intro e he
    obtain ⟨i, hi, rfl⟩ := hmem e (hpermnil.mem_iff.mp he)
    rfl
  set S : EventQueue := (addEvents ⟨[], t0⟩ (tagEvents l)).1 with hS
  have hdrain := drainLog_spawnFree S.queue S.current_time hspfree
  have hSeta : (⟨S.queue, S.current_time⟩ : EventQueue) = S := rfl
  rw [hSeta] at hdrain
  refine ⟨hflag, ?_, ?_, hdrain.2⟩
  · rw [hdrain.1]
    refine List.Pairwise.map (fun e => e.core) ?_ hsorted
    intro a b hab
    exact hab
  · rw [hdrain.1]
    exact hpermnil.map (fun e => e.core)

/-- C1 witness: three events with ties in time and priority drain in
key order with ties in add order. -/
theorem C1_witness :
    (addEvents ⟨[], 0⟩ (tagEvents [(1, 5), (0, 3), (1, 5)])).2 = false
    ∧ ((drainLog (addEvents ⟨[], 0⟩ (tagEvents [(1, 5), (0, 3), (1, 5)])).1.queue.length
        (addEvents ⟨[], 0⟩ (tagEvents [(1, 5), (0, 3), (1, 5)])).1).1).Pairwise
        (fun a b : EvCore => evKey a < evKey b ∨ (evKey a = evKey b ∧ a.id < b.id))
    ∧ ((drainLog (addEvents ⟨[], 0⟩ (tagEvents [(1, 5), (0, 3), (1, 5)])).1.queue.length
        (addEvents ⟨[], 0⟩ (tagEvents [(1, 5), (0, 3), (1, 5)])).1).1).Perm
        ((tagEvents [(1, 5), (0, 3), (1, 5)]).map (fun e => e.core))
    ∧ (drainLog (addEvents ⟨[], 0⟩ (tagEvents [(1, 5), (0, 3), (1, 5)])).1.queue.length
        (addEvents ⟨[], 0⟩ (tagEvents [(1, 5), (0, 3), (1, 5)])).1).2.queue = [] :=
  C1_ordering_fifo [(1, 5), (0, 3), (1, 5)] 0 (by decide)

/-- C2 counterexample: an event whose effect schedules a same-time,
lower-priority follow-up (as an `EntanglementPurificationEvent` with
`communication_time = 0` schedules its `UnblockEvent`) is NOT removed
from the queue by `resolve_next_event`: the follow-up is inserted at the
head position before the slice `self.queue[1:]` is taken, so the slice
removes the unresolved follow-up and the just-resolved event stays queued
and is resolved a second time. -/
theorem C2_counterexample :
    (resolveNextEvent c2Queue).2 = Except.ok purifLikeEvent.core
    ∧ (resolveNextEvent c2Queue).1.queue = [purifLikeEvent]
    ∧ (resolveNextEvent (resolveNextEvent c2Queue).1).2 = Except.ok purifLikeEvent.core :=
  ⟨rfl, by decide, rfl⟩

/-- Scheduling events whose keys are at least the head's key cannot
displace the head: every insertion lands strictly right of position 0, so
the head stays, the queue stays key-sorted, nothing raises, and the part
behind the head consists of old events and newly added ones. -/
theorem addEvents_head_big : ∀ (es : List Ev) (s : EventQueue) (e : Ev) (tail : List Ev),
    s.queue = e :: tail →
    s.current_time = e.core.time →
    List.Pairwise keyLe s.queue →
    (∀ f ∈ es, evKey e.core ≤ evKey f.core) →
    (addEvents s es).2 = false
    ∧ ∃ tail', (addEvents s es).1.queue = e :: tail'
      ∧ (addEvents s es).1.current_time = s.current_time
      ∧ List.Pairwise keyLe (e :: tail')
      ∧ ∀ f ∈ tail', f ∈ tail ∨ f ∈ es := by
  intro es
  induction es with
  | nil =>
    intro s e tail hq ht hsort _
    exact ⟨rfl, tail, hq, rfl, by rwa [hq] at hsort, fun f hf => Or.inl hf⟩
  | cons c cs ih =>
    intro s e tail hq ht hsort hkeys
    have hce : evKey e.core ≤ evKey c.core := hkeys c (List.mem_cons_self c cs)
    have hct : s.current_time ≤ c.core.time := by
      rw [ht]
      rcases (Prod.Lex.le_iff (e.core.time, e.core.priority)
        (c.core.time, c.core.priority)).mp hce with hlt | heq2
      · exact le_of_lt hlt
      · exact le_of_eq heq2.1
    have hadd : addEvent s c = ({ s with queue := insertEvent s.queue c }, false) :=
      addEvent_ok hct
    have hstep : addEvents s (c :: cs)
        = addEvents { s with queue := insertEvent s.queue c } cs := by
      show (match addEvent s c with
        | (s', true) => (s', true)
        | (s', false) => addEvents s' cs) = _
      rw [hadd]
    obtain ⟨r, hr, heq, h1, h2⟩ := insertEvent_pos_spec s.queue c hsort
    have hrpos : 1 ≤ r := by
      by_contra hcon
      have hr0 : r = 0 := by omega
      have hlen : 0 < s.queue.length := by rw [hq]; exact Nat.succ_pos _
      have := h2 0 (by omega) hlen
      rw [List.getD_eq_getElem s.queue default hlen] at this
      have hhead : s.queue[0] = e := by
        have h0 : s.queue[0] = (e :: tail)[0] := by
          congr 1
        rw [h0]
        rfl
      rw [hhead] at this
      exact absurd hce (not_le.mpr this)
    have hins : insertEvent s.queue c = e :: (tail.take (r - 1) ++ c :: tail.drop (r - 1)) := by
      rw [heq, insertIdx_split c r s.queue hr, hq]
      have htk : (e :: tail).take r = e :: tail.take (r - 1) := by
        cases hrc : r with
        | zero => omega
        | succ r' => simp
      have hdr : (e :: tail).drop r = tail.drop (r - 1) := by
        cases hrc : r with
        | zero => omega
        | succ r' => simp
      rw [htk, hdr]
      rfl
    have hsort1 : List.Pairwise keyLe (insertEvent s.queue c) :=
      insertEvent_pairwise_keyLe hsort
    have hrec := ih { s with queue := insertEvent s.queue c } e
      (tail.take (r - 1) ++ c :: tail.drop (r - 1)) hins ht
      (by rw [hins] at hsort1 ⊢; exact hsort1)
      (fun f hf => hkeys f (List.mem_cons_of_mem c hf))
    obtain ⟨hflag, tail', hq', ht', hsort', hmem'⟩ := hrec
    refine ⟨by rw [hstep]; exact hflag, tail', by rw [hstep]; exact hq',
      by rw [hstep]; exact ht', hsort', ?_⟩
    intro f hf
    rcases hmem' f hf with hfm | hfm
    · rcases List.mem_append.mp hfm with hfa | hfa
      · exact Or.inl (List.mem_of_mem_take hfa)
      · rcases List.mem_cons.mp hfa with hfc | hfd
        · rw [hfc]
          exact Or.inr (List.mem_cons_self c cs)
        · exact Or.inl (List.mem_of_mem_drop hfd)
    · exact Or.inr (List.mem_cons_of_mem c hfm)

/-- C2 amended: `resolve_next_event` removes the event it resolves from
the queue — and, when queued event ids are distinct and its effect only
creates fresh events, that event never re-enters the queue — provided
every event added by its effect has insertion key `(time, priority)` at
least the resolved event's key.  (The counterexample shows the claim
fails without that proviso.) -/
theorem C2_resolved_once_amended (s : EventQueue) (e : Ev) (rest : List Ev)
    (hqueue : s.queue = e :: rest)
    (hsorted : List.Pairwise keyLe s.queue)
    (hspawnkey : ∀ c ∈ e.spawns, evKey e.core ≤ evKey c)
    (hid : ∀ f ∈ rest, f.core.id ≠ e.core.id)
    (hid2 : ∀ c ∈ e.spawns, c.id ≠ e.core.id) :
    (resolveNextEvent s).2 = Except.ok e.core
    ∧ ∀ f ∈ (resolveNextEvent s).1.queue, f.core.id ≠ e.core.id := by
  obtain ⟨queue, t⟩ := s
  simp only at hqueue
  subst hqueue
  have hbig := addEvents_head_big (e.spawns.map (fun c => ⟨c, []⟩))
    ⟨e :: rest, e.core.time⟩ e rest rfl rfl (by simpa using hsorted)
    (by
      intro f hf
      obtain ⟨c, hc, rfl⟩ := List.mem_map.mp hf
      exact hspawnkey c hc)
  obtain ⟨hflag, tail', hq', _, _, hmem'⟩ := hbig
  have hpair : addEvents ⟨e :: rest, e.core.time⟩ (e.spawns.map (fun c => ⟨c, []⟩))
      = ((addEvents ⟨e :: rest, e.core.time⟩ (e.spawns.map (fun c => ⟨c, []⟩))).1, false) := by
    rw [← hflag]
  have hres : resolveNextEvent ⟨e :: rest, t⟩
      = (⟨(addEvents ⟨e :: rest, e.core.time⟩ (e.spawns.map (fun c => ⟨c, []⟩))).1.queue.drop 1,
          (addEvents ⟨e :: rest, e.core.time⟩ (e.spawns.map (fun c => ⟨c, []⟩))).1.current_time⟩,
        Except.ok e.core) := by
    simp only [resolveNextEvent]
    rw [hpair]
  rw [hres]
  refine ⟨rfl, ?_⟩
  intro f hf
  simp only at hf
  rw [hq'] at hf
  simp only [List.drop_succ_cons, List.drop_zero] at hf
  rcases hmem' f hf with hfm | hfm
  · exact hid f hfm
  · obtain ⟨c, hc, rfl⟩ := List.mem_map.mp hfm
    exact hid2 c hc

/-- C2 witness: an event whose effect schedules one later event is
removed by its own resolution. -/
theorem C2_witness :
    (resolveNextEvent ⟨[⟨⟨0, 20, 0⟩, [⟨1, 0, 1⟩]⟩], 0⟩).2
      = Except.ok (⟨⟨0, 20, 0⟩, [⟨1, 0, 1⟩]⟩ : Ev).core
    ∧ ∀ f ∈ (resolveNextEvent ⟨[⟨⟨0, 20, 0⟩, [⟨1, 0, 1⟩]⟩], 0⟩).1.queue,
      f.core.id ≠ (⟨⟨0, 20, 0⟩, [⟨1, 0, 1⟩]⟩ : Ev).core.id :=
  C2_resolved_once_amended ⟨[⟨⟨0, 20, 0⟩, [⟨1, 0, 1⟩]⟩], 0⟩ ⟨⟨0, 20, 0⟩, [⟨1, 0, 1⟩]⟩ []
    rfl (by decide) (by decide) (by decide) (by decide)

/-- `advance_time` always leaves the clock at `current_time +
time_interval`, whether or not it raises. -/
theorem advanceTime_time (s : EventQueue) (i : ℚ) :
    (advanceTime s i).1.current_time = s.current_time + i := by
  unfold advanceTime
  cases s.queue with
  | nil => rfl
  | cons f rest => by_cases hf : f.core.time < s.current_time + i <;> simp [hf]

/-- Key order implies time order (the time is the first, lexicographically
dominant component of the key). -/
theorem keyLe_time_le {a b : Ev} (h : keyLe a b) : a.core.time ≤ b.core.time := by
  rcases (Prod.Lex.le_iff (a.core.time, a.core.priority)
    (b.core.time, b.core.priority)).mp h with hlt | heq
  · exact le_of_lt hlt
  · exact le_of_eq heq.1

/-- `resolve_next_event` never moves the clock backwards on a state whose
pending events all lie at or after the current time. -/
theorem resolveNextEvent_time_ge (s : EventQueue)
    (h : ∀ e ∈ s.queue, s.current_time ≤ e.core.time) :
    s.current_time ≤ (resolveNextEvent s).1.current_time := by
  obtain ⟨queue, t⟩ := s
  cases queue with
  | nil => exact le_rfl
  | cons e rest =>
    have h1 : t ≤ e.core.time := h e (List.mem_cons_self e rest)
    simp only [resolveNextEvent]
    have hsplit : addEvents ⟨e :: rest, e.core.time⟩ (e.spawns.map (fun c => ⟨c, []⟩))
        = ((addEvents ⟨e :: rest, e.core.time⟩ (e.spawns.map (fun c => ⟨c, []⟩))).1,
          (addEvents ⟨e :: rest, e.core.time⟩ (e.spawns.map (fun c => ⟨c, []⟩))).2) := rfl
    rw [hsplit]
    cases hb : (addEvents ⟨e :: rest, e.core.time⟩ (e.spawns.map (fun c => ⟨c, []⟩))).2 with
    | true =>
      exact le_trans h1 (le_of_eq
        (addEvents_time (e.spawns.map (fun c => ⟨c, []⟩)) ⟨e :: rest, e.core.time⟩).symm)
    | false =>
      exact le_trans h1 (le_of_eq
        (addEvents_time (e.spawns.map (fun c => ⟨c, []⟩)) ⟨e :: rest, e.core.time⟩).symm)

/-- Every event in the queue after a burst of `add_event` calls is
either an original queue member or one of the added events — and an
added event that made it into the queue passed the not-in-the-past check
against the (unchanged) current time. -/
theorem addEvents_mem : ∀ (es : List Ev) (s : EventQueue) (f : Ev),
    f ∈ (addEvents s es).1.queue →
    f ∈ s.queue ∨ (f ∈ es ∧ s.current_time ≤ f.core.time) := by
  intro es
  induction es with
  | nil =>
    intro s f hf
    exact Or.inl hf
  | cons c cs ih =>
    intro s f hf
    by_cases hc : c.core.time < s.current_time
    · have hstep : addEvents s (c :: cs) = (s, true) := by
        show (match addEvent s c with
          | (s', true) => (s', true)
          | (s', false) => addEvents s' cs) = _
        unfold addEvent
        rw [if_pos hc]
      rw [hstep] at hf
      exact Or.inl hf
    · have hstep : addEvents s (c :: cs)
          = addEvents { s with queue := insertEvent s.queue c } cs := by
        show (match addEvent s c with
          | (s', true) => (s', true)
          | (s', false) => addEvents s' cs) = _
        rw [addEvent_ok (not_lt.mp hc)]
      rw [hstep] at hf
      rcases ih { s with queue := insertEvent s.queue c } f hf with hf1 | ⟨hf2, hf3⟩
      · rcases List.mem_cons.mp ((insertEvent_perm s.queue c).mem_iff.mp hf1) with hfc | hfs
        · refine Or.inr ⟨?_, ?_⟩
          · rw [hfc]
            exact List.mem_cons_self c cs
          · rw [hfc]
            exact not_lt.mp hc
        · exact Or.inl hfs
      · exact Or.inr ⟨List.mem_cons_of_mem c hf2, hf3⟩

/-- One `resolve_next_event` step on a key-sorted non-empty queue, with
arbitrary effects: the clock ends at the head's time whether or not the
step raises, and on a successful step the resolved result is the head's
core, every remaining event lies at or after the new clock, and the
queue is still key-sorted. -/
theorem resolveNextEvent_step (e : Ev) (rest : List Ev) (t : ℚ)
    (hsort : List.Pairwise keyLe (e :: rest)) :
    (resolveNextEvent ⟨e :: rest, t⟩).1.current_time = e.core.time
    ∧ ((resolveNextEvent ⟨e :: rest, t⟩).2 = Except.error ()
      ∨ ((resolveNextEvent ⟨e :: rest, t⟩).2 = Except.ok e.core
        ∧ (∀ f ∈ (resolveNextEvent ⟨e :: rest, t⟩).1.queue, e.core.time ≤ f.core.time)
        ∧ List.Pairwise keyLe (resolveNextEvent ⟨e :: rest, t⟩).1.queue)) := by
  have hQsort : List.Pairwise keyLe
      (addEvents ⟨e :: rest, e.core.time⟩ (e.spawns.map (fun c => ⟨c, []⟩))).1.queue :=
    addEvents_pairwise_keyLe (e.spawns.map (fun c => ⟨c, []⟩))
      ⟨e :: rest, e.core.time⟩ hsort
  simp only [resolveNextEvent]
  have hsplit : addEvents ⟨e :: rest, e.core.time⟩ (e.spawns.map (fun c => ⟨c, []⟩))
      = ((addEvents ⟨e :: rest, e.core.time⟩ (e.spawns.map (fun c => ⟨c, []⟩))).1,
        (addEvents ⟨e :: rest, e.core.time⟩ (e.spawns.map (fun c => ⟨c, []⟩))).2) := rfl
  rw [hsplit]
  cases hb : (addEvents ⟨e :: rest, e.core.time⟩ (e.spawns.map (fun c => ⟨c, []⟩))).2 with
  | true =>
    exact ⟨addEvents_time (e.spawns.map (fun c => ⟨c, []⟩)) ⟨e :: rest, e.core.time⟩,
      Or.inl rfl⟩
  | false =>
    refine ⟨addEvents_time (e.spawns.map (fun c => ⟨c, []⟩)) ⟨e :: rest, e.core.time⟩,
      Or.inr ⟨rfl, ?_, ?_⟩⟩
    · intro f hf
      have hfQ := List.mem_of_mem_drop hf
      rcases addEvents_mem (e.spawns.map (fun c => ⟨c, []⟩))
          ⟨e :: rest, e.core.time⟩ f hfQ with hfs | ⟨_, hft⟩
      · rcases List.mem_cons.mp hfs with hfe | hfr
        · rw [hfe]
        · exact keyLe_time_le ((List.pairwise_cons.mp hsort).1 f hfr)
      · exact hft
    · exact List.Pairwise.sublist (List.drop_sublist 1 _) hQsort

/-- The `resolve_until` loop never moves the clock backwards on a state
satisfying the reachable-state invariant when the target is not in the
past, for any pending effects and any loop fuel. -/
theorem resolveUntilLoop_time (target : ℚ) : ∀ (fuel : ℕ) (s : EventQueue),
    (∀ e ∈ s.queue, s.current_time ≤ e.core.time) →
    List.Pairwise keyLe s.queue →
    s.current_time ≤ target →
    s.current_time ≤ (resolveUntilLoop target fuel s).1.current_time := by
  intro fuel
  induction fuel with
  | zero =>
    intro s htime _ htar
    obtain ⟨queue, t⟩ := s
    cases queue with
    | nil => exact htar
    | cons e rest =>
      by_cases het : e.core.time ≤ target
      · have hstep : resolveUntilLoop target 0 ⟨e :: rest, t⟩ = (⟨e :: rest, t⟩, true) := by
          show (if e.core.time ≤ target then ((⟨e :: rest, t⟩ : EventQueue), true)
            else ({ (⟨e :: rest, t⟩ : EventQueue) with current_time := target }, false)) = _
          rw [if_pos het]
        rw [hstep]
      · have hstep : resolveUntilLoop target 0 ⟨e :: rest, t⟩
            = (⟨e :: rest, target⟩, false) := by
          show (if e.core.time ≤ target then ((⟨e :: rest, t⟩ : EventQueue), true)
            else ({ (⟨e :: rest, t⟩ : EventQueue) with current_time := target }, false)) = _
          rw [if_neg het]
        rw [hstep]
        exact htar
  | succ fuel ih =>
    intro s htime hsort htar
    obtain ⟨queue, t⟩ := s
    cases queue with
    | nil => exact htar
    | cons e rest =>
      have hhead : t ≤ e.core.time := htime e (List.mem_cons_self e rest)
      by_cases het : e.core.time ≤ target
      · have hstep : resolveUntilLoop target (fuel + 1) ⟨e :: rest, t⟩
            = match resolveNextEvent ⟨e :: rest, t⟩ with
              | (s', Except.ok _) => resolveUntilLoop target fuel s'
              | (s', Except.error _) => (s', true) := by
          show (if e.core.time ≤ target then
              match resolveNextEvent ⟨e :: rest, t⟩ with
              | (s', Except.ok _) => resolveUntilLoop target fuel s'
              | (s', Except.error _) => (s', true)
            else ({ (⟨e :: rest, t⟩ : EventQueue) with current_time := target }, false)) = _
          rw [if_pos het]
        obtain ⟨htimeEq, hcase⟩ := resolveNextEvent_step e rest t hsort
        have hsplit : resolveNextEvent ⟨e :: rest, t⟩
            = ((resolveNextEvent ⟨e :: rest, t⟩).1, (resolveNextEvent ⟨e :: rest, t⟩).2) := rfl
        rw [hstep, hsplit]
        rcases hcase with herr | ⟨hok, hbound, hsort'⟩
        · rw [herr]
          exact le_trans hhead (le_of_eq htimeEq.symm)
        · rw [hok]
          refine le_trans (le_trans hhead (le_of_eq htimeEq.symm)) (ih _ ?_ ?_ ?_)
          · intro f hf
            rw [htimeEq]
            exact hbound f hf
          · exact hsort'
          · rw [htimeEq]
            exact het
      · have hstep : resolveUntilLoop target (fuel + 1) ⟨e :: rest, t⟩
            = (⟨e :: rest, target⟩, false) := by
          show (if e.core.time ≤ target then
              match resolveNextEvent ⟨e :: rest, t⟩ with
              | (s', Except.ok _) => resolveUntilLoop target fuel s'
              | (s', Except.error _) => (s', true)
            else ({ (⟨e :: rest, t⟩ : EventQueue) with current_time := target }, false)) = _
          rw [if_neg het]
        rw [hstep]
        exact htar

/-- C4 amended: on every queue state satisfying the reachable-state
invariant (pending events at or after the clock, queue key-sorted) no
public operation moves `current_time` backwards — including the calls
that raise and events whose effects schedule further events — provided
`advance_time` is given a non-negative interval (the counterexample
shows a negative interval moves the clock back). -/
theorem C4_amended_monotone_clock :
    ∀ (s : EventQueue), TimeInv s →
    (∀ e, (addEvent s e).1.current_time = s.current_time)
    ∧ s.current_time ≤ (resolveNextEvent s).1.current_time
    ∧ (∀ (fuel : ℕ) (target : ℚ),
        s.current_time ≤ (resolveUntil fuel s target).1.current_time)
    ∧ (∀ i : ℚ, 0 ≤ i → s.current_time ≤ (advanceTime s i).1.current_time) := by
  intro s hinv
  obtain ⟨htime, hsort⟩ := hinv
  refine ⟨addEvent_time s, resolveNextEvent_time_ge s htime, ?_, ?_⟩
  · intro fuel target
    unfold resolveUntil
    by_cases htar : target < s.current_time
    · rw [if_pos htar]
    · rw [if_neg htar]
      exact resolveUntilLoop_time target fuel s htime hsort (not_lt.mp htar)
  · intro i hi
    rw [advanceTime_time]
    exact le_add_of_nonneg_right hi

/-- C4 witness: the amended statement applied to the one-event queue
`c9Queue` at time 0. -/
theorem C4_witness :
    ((addEvent c9Queue purifLikeEvent).1.current_time = c9Queue.current_time)
    ∧ c9Queue.current_time ≤ (resolveNextEvent c9Queue).1.current_time
    ∧ c9Queue.current_time ≤ (resolveUntil 1 c9Queue 5).1.current_time
    ∧ c9Queue.current_time ≤ (advanceTime c9Queue 2).1.current_time := by
  have h := C4_amended_monotone_clock c9Queue (by unfold TimeInv; exact ⟨by decide, by decide⟩)
  exact ⟨h.1 purifLikeEvent, h.2.1, h.2.2.1 1 5, h.2.2.2 2 (by decide)⟩

/-- C10: for a channel of arity at least two, `apply_to` is invariant
under permutation of a duplicate-free index list of the right length:
`apply_m_qubit_map` sorts `qubit_indices` before anything else depends on
their order, so the result depends only on the sorted list. -/
theorem C10_apply_to_index_order_invariant (c : NoiseChannelL) (rho : NDTensor)
    (l1 l2 : List ℕ) (n : ℕ)
    (h2 : 2 ≤ c.n_qubits) (hnd : l1.Nodup) (hlen : l1.length = c.n_qubits)
    (hperm : l1.Perm l2) :
    c.applyTo rho l1 n = c.applyTo rho l2 n := by
  have hlen2 : l2.length = c.n_qubits := by rw [← hperm.length_eq, hlen]
  have hne : ¬ c.n_qubits = 1 := by omega
  have hsort : l1.mergeSort (fun a b => decide (a ≤ b))
      = l2.mergeSort (fun a b => decide (a ≤ b)) := by
    have htrans : ∀ a b c3 : ℕ, decide (a ≤ b) = true → decide (b ≤ c3) = true →
        decide (a ≤ c3) = true := by
      intro a b c3 hab hbc
      exact decide_eq_true (le_trans (of_decide_eq_true hab) (of_decide_eq_true hbc))
    have htotal : ∀ a b : ℕ, (decide (a ≤ b) || decide (b ≤ a)) = true := by
      intro a b
      rcases le_total a b with h | h
      · rw [decide_eq_true h]
        rfl
      · rw [decide_eq_true h]
        exact Bool.or_true _
    apply List.eq_of_perm_of_sorted (r := fun a b : ℕ => a ≤ b)
    · exact (List.mergeSort_perm l1 _).trans (hperm.trans (List.mergeSort_perm l2 _).symm)
    · exact (List.sorted_mergeSort htrans htotal l1).imp (fun h => of_decide_eq_true h)
    · exact (List.sorted_mergeSort htrans htotal l2).imp (fun h => of_decide_eq_true h)
  unfold NoiseChannelL.applyTo
  rw [hlen, hlen2]
  simp only [if_pos rfl, hne, if_false]
  unfold applyMQubitMap
  rw [hsort, hperm.length_eq]

/-- C10 witness: the two-qubit identity channel applied at indices
`[0, 1]` and `[1, 0]` of a two-qubit state gives the same result. -/
theorem C10_witness :
    c10Chan.applyTo (fun _ => 0) [0, 1] 2 = c10Chan.applyTo (fun _ => 0) [1, 0] 2 :=
  C10_apply_to_index_order_invariant c10Chan (fun _ => 0) [0, 1] [1, 0] 2
    (by decide) (by decide) (by decide) (by decide)

end Requsim
